import Mathlib

/-
Shallow embedding of src/main.rs (a semantle game / solver).

Machine `f32` arithmetic is modelled by exact rationals (ℚ); `usize` by ℕ
with the source's overflow-panics made explicit.  Rust `HashMap`s are
modelled as association lists; `retain` becomes `List.filter`.  Fallible
code (`unwrap` on `Option::None`, usize underflow) is modelled by `Option`
results where `none` stands for a panic.
-/

set_option maxRecDepth 200000

namespace Semantle

/-- A word embedding vector (Rust `Vec<f32>`). -/
abbrev WVec := List ℚ

/-- The `words_to_vecs` / `original_words` maps (`HashMap<&str, Vec<f32>>`). -/
abbrev WMap := List (String × WVec)

/-- The solver's constraint log (`Vec<(String, f32)>`). -/
abbrev LogT := List (String × ℚ)

/-- `fn dot_product(v1: &[f32], v2: &[f32]) -> f32`:
`v1.iter().zip(v2.iter()).map(|i| *i.0 * *i.1).sum()`. -/
def dot_product (v1 v2 : WVec) : ℚ :=
  ((v1.zip v2).map fun i => i.1 * i.2).sum

/-- `fn filter_embeddings(v1, v2, target_val) -> bool`:
`let res = dot_product(v1, v2) * 100.0; res >= target_val - 0.005 && res < target_val + 0.005`. -/
def filter_embeddings (v1 v2 : WVec) (target_val : ℚ) : Bool :=
  let res := dot_product v1 v2 * 100
  decide (res ≥ target_val - 5/1000) && decide (res < target_val + 5/1000)

/-- `fn update_words(original_words, words_to_vecs, log)`, the loop body:
for each `(word, val)` in the log, look up `original_words.get(word).unwrap()`
(a failed lookup panics, modelled as `none`) and `retain` the consistent
entries.  `wtv` is the running `*words_to_vecs`. -/
def update_words_go (original_words : WMap) (wtv : WMap) : LogT → Option WMap
  | [] => some wtv
  | c :: rest =>
    match original_words.lookup c.1 with
    | none => none
    | some cv =>
      update_words_go original_words
        (wtv.filter fun p => filter_embeddings cv p.2 c.2) rest

/-- `fn update_words`: `*words_to_vecs = original_words.clone();` then the
retain loop over the log. -/
def update_words (original_words : WMap) (log : LogT) : Option WMap :=
  update_words_go original_words original_words log

/-- `enum AddWordState { Normal, Edit, Remove }`. -/
inductive AddWordState where
  | normal
  | edit
  | remove
deriving DecidableEq

/-- One token of a solver command line, as the `w` closure distinguishes
them: the literal flags `-n`, `-e`, `-r`, or any other string `s` together
with the result of `s.parse::<f32>()` (`num`). -/
inductive Term where
  | tn
  | te
  | tr
  | str (s : String) (num : Option ℚ)
deriving DecidableEq

/-- The mutable parse state of the `w` closure's `for term in params` loop:
`state`, `word_count`, `word`, `val`. -/
structure ParseSt where
  state : AddWordState
  wordCount : Nat
  word : Option String
  val : Option ℚ
deriving DecidableEq

/-- The `for term in params` loop of the `w` command closure.  `.error ()`
is any early `return (None, words_to_vecs, log)` (unknown word or usage
error); both leave the session state unchanged. -/
def parseW (original_words : WMap) : List Term → ParseSt → Except Unit ParseSt
  | [], st => .ok st
  | .tn :: rest, st => parseW original_words rest { st with state := .normal }
  | .te :: rest, st => parseW original_words rest { st with state := .edit }
  | .tr :: rest, st => parseW original_words rest { st with state := .remove }
  | .str s num :: rest, st =>
    match st.wordCount with
    | 0 =>
      if (original_words.lookup s).isSome then
        parseW original_words rest { st with word := some s, wordCount := 1 }
      else
        .error ()
    | 1 =>
      match num with
      | none => .error ()
      | some q => parseW original_words rest { st with val := some q, wordCount := 2 }
    | _ => .error ()

/-- The `(words_to_vecs, log)` pair a solver command returns. -/
structure WResult where
  wtv : WMap
  log : LogT
deriving DecidableEq

/-- The Edit branch's log rewrite:
`log.into_iter().map(|(a, b)| (a.clone(), if *a == word { val } else { b }))`. -/
def editLog (log : LogT) (word : String) (val : ℚ) : LogT :=
  log.map fun e => (e.1, if e.1 == word then val else e.2)

/-- The Remove branch's log rewrite: `log.retain(|(a, _)| *a != word)`. -/
def removeLog (log : LogT) (word : String) : LogT :=
  log.filter fun e => !(e.1 == word)

/-- The `w` command closure of `init_commands` (add / edit / remove a
constraint).  `params` includes the leading command token, which the
closure skips (`params.into_iter().skip(1)`).  The result is `none`
exactly when the Rust code would panic (`original_words.get(..).unwrap()`
inside `update_words`, or in the Normal branch). -/
def wCommand (params : List Term) (original_words wtv : WMap) (log : LogT) :
    Option WResult :=
  match parseW original_words (params.drop 1) ⟨.normal, 0, none, none⟩ with
  | .error _ => some ⟨wtv, log⟩
  | .ok st =>
    match st.word with
    | none => some ⟨wtv, log⟩
    | some word =>
      match st.state with
      | .normal =>
        match st.val with
        | none => some ⟨wtv, log⟩
        | some val =>
          if log.any fun e => e.1 == word then some ⟨wtv, log⟩
          else
            match original_words.lookup word with
            | none => none
            | some cv =>
              some ⟨wtv.filter fun p => filter_embeddings cv p.2 val,
                    log ++ [(word, val)]⟩
      | .edit =>
        match st.val with
        | none => some ⟨wtv, log⟩
        | some val =>
          if !(log.any fun e => e.1 == word) then some ⟨wtv, log⟩
          else
            (update_words original_words (editLog log word val)).map
              fun m => ⟨m, editLog log word val⟩
      | .remove =>
        if !(log.any fun e => e.1 == word) then some ⟨wtv, log⟩
        else
          (update_words original_words (removeLog log word)).map
            fun m => ⟨m, removeLog log word⟩

/-- Solver session states reachable from the start state
(`words_to_vecs = original_words.clone()`, empty log) by commands.  The
`w` command is the only command of `init_commands` that returns a changed
`(words_to_vecs, log)` pair; all others return them untouched. -/
inductive Reach (original_words : WMap) : WMap → LogT → Prop where
  | init : Reach original_words original_words []
  | step (params : List Term) (wtv : WMap) (log : LogT) (r : WResult) :
      Reach original_words wtv log →
      wCommand params original_words wtv log = some r →
      Reach original_words r.wtv r.log

/-- `f32::round` (round half away from zero), as used by the `fb` command's
`(dot_product(b, d) * 10000.).round() as i32`. -/
def rustRound (q : ℚ) : ℤ :=
  if 0 ≤ q then ⌊q + 1/2⌋ else ⌈q - 1/2⌉

/-- The number the `fb` closure pairs with a candidate `b`:
`words_to_vecs.values().map(|d| (dot_product(b, d) * 10000.).round() as i32).unique().count()`. -/
def fb_count (wtv : WMap) (b : WVec) : Nat :=
  ((wtv.map fun p => rustRound (dot_product b p.2 * 10000)).dedup).length

/-- The word printed by the `fb` command closure: `eget` on an empty log,
otherwise the first component of
`words_to_vecs.iter().map(|(a, b)| (a, ..count..)).fold(("-", 0), |a, b| (b.0, a.1.max(b.1)))`. -/
def fb_proposed (wtv : WMap) (log : LogT) : String :=
  if log.isEmpty then "eget"
  else
    ((wtv.map fun p => (p.1, fb_count wtv p.2)).foldl
      (fun a b => (b.1, max a.2 b.2)) ("-", 0)).1

/-- The combined consistency predicate a full recomputation applies to an
entry of the original vocabulary. -/
def consistentAll (original_words : WMap) (L : LogT) (p : String × WVec) : Bool :=
  L.all fun c =>
    match original_words.lookup c.1 with
    | none => true
    | some cv => filter_embeddings cv p.2 c.2

/-
Game mode (`fn start_game`).  Words are identified with natural numbers
(the game logic never inspects the word strings themselves; only equality
matters).  The parts of `start_game` that the claims depend on are the
mutable loop state `guesses`, `guessed`, `log`, `most_recent` and
`best_guessed`; the purely visual `max_lens` / column layout is omitted.
`most_similar` is the vocabulary sorted by descending similarity to the
secret (`most_similar[0]` is the secret itself) and `similarities` maps a
word to its `(rounded similarity, rank index)` pair, exactly as
`start_game` builds them before the loop.
-/

/-- The game loop's mutable state: `guesses`, `guessed` (a `HashSet`,
modelled as a duplicate-free list), `log` of
`(guess number, word, similarity, rank index)` entries, `most_recent`,
`best_guessed`. -/
structure GameState where
  guesses : Nat
  guessed : List Nat
  log : List (Nat × Nat × ℚ × Nat)
  mostRecent : Nat
  bestGuessed : Nat
deriving DecidableEq

/-- The state at the start of a game session. -/
def initGameState : GameState :=
  ⟨0, [], [], 0, 0⟩

/-- One line of player input: a vocabulary-or-unknown word, or one of the
three meta-commands the loop matches on. -/
inductive GInput where
  | word (w : Nat)
  | quit
  | help
  | hint
deriving DecidableEq

/-- Outcome of one loop iteration: the game was won (`exit(0)` with the
guess count), quit, panicked (an `unwrap` failed or `1000-best_guessed-1`
underflowed), or continues with a new state. -/
inductive GOut where
  | won (guesses : Nat)
  | quitted
  | panic
  | cont (s : GameState)
deriving DecidableEq

/-- The scoreboard redraw tail of the loop body: reads
`log.get(most_recent - 1).unwrap()` (panic when absent) and, when the
entry's rank index is in `0..=999`, raises `best_guessed` to
`max best_guessed (1000 - index)`. -/
def displayStep (s : GameState) : GOut :=
  match s.log[s.mostRecent - 1]? with
  | none => .panic
  | some e =>
    if e.2.2.2 ≤ 999 then
      .cont { s with bestGuessed := max s.bestGuessed (1000 - e.2.2.2) }
    else
      .cont s

/-- Processing of a (possibly hint-substituted) word guess: the
`if let Some(x) = similarities.get(..)` block of the loop body, followed
by the scoreboard redraw.  A known new word consumes a guess number and is
appended to the log; a known repeated word only resets `most_recent` to
its recorded guess number (`log.iter().find(..).unwrap().0`); an unknown
word redraws the previous state, or skips the redraw entirely when no
valid guess exists yet (`most_recent == 0`). -/
def processWord (sims : Nat → Option (ℚ × Nat)) (s : GameState) (w : Nat) : GOut :=
  match sims w with
  | some x =>
    if w ∈ s.guessed then
      match s.log.find? fun e => e.2.1 == w with
      | none => .panic
      | some e => displayStep { s with mostRecent := e.1 }
    else
      displayStep
        { guesses := s.guesses + 1
          guessed := w :: s.guessed
          log := s.log ++ [(s.guesses + 1, w, x.1, x.2)]
          mostRecent := s.guesses + 1
          bestGuessed := s.bestGuessed }
  | none =>
    if s.mostRecent = 0 then .cont s else displayStep s

/-- The word the `!hint` branch substitutes:
`most_similar.get(1000 - best_guessed - 1).unwrap()`.  The `usize`
expression `1000 - best_guessed - 1` panics when `best_guessed ≥ 1000`
(in a release build it wraps to a huge index, and the `unwrap` of the
out-of-bounds `get` panics instead); otherwise it equals
`999 - best_guessed`.  `none` models the panic. -/
def hintWord (most_similar : List Nat) (s : GameState) : Option Nat :=
  if s.bestGuessed ≥ 1000 then none
  else most_similar[999 - s.bestGuessed]?

/-- One iteration of the `start_game` loop on one line of input.  The
win check (`word == answer`) happens on the raw input line, before the
meta-command match, so a word substituted by `!hint` is never checked for
a win — it goes through normal guess processing. -/
def gameStep (answer : Nat) (most_similar : List Nat)
    (sims : Nat → Option (ℚ × Nat)) (s : GameState) : GInput → GOut
  | .word w => if w = answer then .won (s.guesses + 1) else processWord sims s w
  | .quit => .quitted
  | .help => .cont s
  | .hint =>
    match hintWord most_similar s with
    | none => .panic
    | some w => processWord sims s w

/-- The hint words surfaced by one input (empty unless the input is
`!hint` and the index computation succeeds). -/
def hintsOf (most_similar : List Nat) (s : GameState) : GInput → List Nat
  | .hint => (hintWord most_similar s).toList
  | _ => []

/-- Run the game loop over a list of inputs, collecting every word the
`!hint` command returned, in order.  The run stops at a win, quit or
panic. -/
def gameRunHints (answer : Nat) (most_similar : List Nat)
    (sims : Nat → Option (ℚ × Nat)) : GameState → List GInput → List Nat
  | _, [] => []
  | s, inp :: rest =>
    match gameStep answer most_similar sims s inp with
    | .cont s2 => hintsOf most_similar s inp ++ gameRunHints answer most_similar sims s2 rest
    | _ => hintsOf most_similar s inp

/-- Run the game loop over a list of inputs; `some` is the surviving
state, `none` means the session ended (win, quit or panic). -/
def gameRunState (answer : Nat) (most_similar : List Nat)
    (sims : Nat → Option (ℚ × Nat)) : GameState → List GInput → Option GameState
  | s, [] => some s
  | s, inp :: rest =>
    match gameStep answer most_similar sims s inp with
    | .cont s2 => gameRunState answer most_similar sims s2 rest
    | _ => none

/-- A concrete 1000-word game context: word `w` has rank index `w` (the
secret is word 0) and every displayed similarity is 0 — realized e.g. by
an all-zero embedding table, where every dot product is 0 and the
descending sort is the stable identity order. -/
def sims1000 : Nat → Option (ℚ × Nat) :=
  fun w => if w < 1000 then some (0, w) else none

/-- A concrete 500-word game context, as `sims1000` but with 500 words. -/
def sims500 : Nat → Option (ℚ × Nat) :=
  fun w => if w < 500 then some (0, w) else none

/-- The game-loop invariant: the log carries `guesses` entries numbered
consecutively from 1; every guessed word of rank index `idx ≤ 999` has
pushed `best_guessed` to at least `1000 - idx`; and every word returned by
`!hint` so far (`hs`) has been recorded as guessed. -/
structure GInv (sims : Nat → Option (ℚ × Nat)) (s : GameState) (hs : List Nat) :
    Prop where
  len_eq : s.log.length = s.guesses
  numbered : ∀ (k : Nat) (e : Nat × Nat × ℚ × Nat), s.log[k]? = some e → e.1 = k + 1
  bg_bound : ∀ w ∈ s.guessed, ∀ (sc : ℚ) (idx : Nat),
    sims w = some (sc, idx) → idx ≤ 999 → 1000 - idx ≤ s.bestGuessed
  hints_guessed : ∀ w ∈ hs, w ∈ s.guessed

/-- Appending one constraint to the log makes `update_words` perform one
more `retain` pass on its result. -/
theorem update_words_go_append (original_words : WMap) (c : String × ℚ) :
    ∀ (L : LogT) (acc : WMap),
      update_words_go original_words acc (L ++ [c]) =
        (update_words_go original_words acc L).bind fun m =>
          match original_words.lookup c.1 with
          | none => none
          | some cv => some (m.filter fun p => filter_embeddings cv p.2 c.2)
  | [], acc => by
    simp only [List.nil_append, update_words_go, Option.bind_some]
    cases h : original_words.lookup c.1
    · rfl
    · rfl
  | d :: L, acc => by
    simp only [List.cons_append, update_words_go]
    cases original_words.lookup d.1 <;>
      simp [update_words_go_append original_words c L]

/-- A successful `update_words` run is one big filter of its starting map. -/
theorem update_words_go_eq_filter (original_words : WMap) :
    ∀ (L : LogT) (acc m : WMap),
      update_words_go original_words acc L = some m →
      m = acc.filter (consistentAll original_words L)
  | [], acc, m => by
    intro h
    simp only [update_words_go, Option.some.injEq] at h
    subst h
    exact (List.filter_eq_self.mpr fun a _ => by simp [consistentAll]).symm
  | c :: L, acc, m => by
    intro h
    simp only [update_words_go] at h
    cases hlook : original_words.lookup c.1 with
    | none => rw [hlook] at h; exact absurd h (by simp)
    | some cv =>
      rw [hlook] at h
      have := update_words_go_eq_filter original_words L _ m h
      rw [this, List.filter_filter]
      have hfun : ∀ p ∈ acc,
          (consistentAll original_words L p && filter_embeddings cv p.2 c.2) =
            consistentAll original_words (c :: L) p := by
        intro p _
        simp [consistentAll, hlook, List.all_cons, Bool.and_comm]
      exact List.filter_congr hfun

/-- Filtering with a pointwise-weaker predicate keeps at least as many
elements. -/
theorem filter_length_mono {α : Type} (p q : α → Bool) :
    ∀ l : List α, (∀ a ∈ l, p a = true → q a = true) →
      (l.filter p).length ≤ (l.filter q).length
  | [], _ => by simp
  | a :: l, h => by
    have ih := filter_length_mono p q l fun x hx => h x (List.mem_cons_of_mem a hx)
    by_cases hp : p a = true
    · rw [List.filter_cons_of_pos hp, List.filter_cons_of_pos (h a (List.mem_cons_self a l) hp)]
      simpa using ih
    · rw [List.filter_cons_of_neg (by simpa using hp)]
      cases hq : q a
      · rw [List.filter_cons_of_neg (by simp [hq])]
        exact ih
      · rw [List.filter_cons_of_pos hq]
        exact Nat.le_succ_of_le ih

/-- Dropping constraints from the log weakens the combined consistency
predicate. -/
theorem consistentAll_filter_weaker (original_words : WMap) (L : LogT)
    (g : String × ℚ → Bool) (p : String × WVec)
    (h : consistentAll original_words L p = true) :
    consistentAll original_words (L.filter g) p = true := by
  rw [consistentAll, List.all_eq_true] at h ⊢
  exact fun c hc => h c (List.mem_filter.mp hc).1

/-- Every successful `w` command keeps the session invariant that
`words_to_vecs` equals the full recomputation from the original
vocabulary and the current log. -/
theorem wCommand_preserves (params : List Term) (original_words wtv : WMap)
    (log : LogT) (r : WResult)
    (h : wCommand params original_words wtv log = some r)
    (hinv : update_words original_words log = some wtv) :
    update_words original_words r.log = some r.wtv := by
  rw [wCommand] at h
  split at h
  · cases h; exact hinv
  · split at h
    · cases h; exact hinv
    · split at h
      · -- Normal (add)
        split at h
        · cases h; exact hinv
        · split at h
          · cases h; exact hinv
          · split at h
            · exact absurd h (by simp)
            · rename_i word val hdup cv hlook
              cases h
              rw [update_words] at hinv ⊢
              rw [update_words_go_append, hinv]
              simp [hlook]
      · -- Edit
        split at h
        · cases h; exact hinv
        · split at h
          · cases h; exact hinv
          · obtain ⟨m, hm, hr⟩ := Option.map_eq_some'.mp h
            rw [← hr]
            exact hm
      · -- Remove
        split at h
        · cases h; exact hinv
        · obtain ⟨m, hm, hr⟩ := Option.map_eq_some'.mp h
          rw [← hr]
          exact hm

/-- In every reachable solver session state, the Working Candidate Set is
exactly the full recomputation from the original vocabulary and the log. -/
theorem Reach_update (original_words wtv : WMap) (log : LogT)
    (h : Reach original_words wtv log) :
    update_words original_words log = some wtv := by
  induction h with
  | init => rfl
  | step params wtv0 log0 r _ hcmd ih =>
    exact wCommand_preserves params original_words wtv0 log0 r hcmd ih

/-- Zipping stops at the shorter list: extra elements appended to the right
operand beyond the left operand's length are ignored. -/
theorem zip_append_ignored {α : Type} :
    ∀ (v1 v2 ext : List α), v1.length = v2.length →
      v1.zip (v2 ++ ext) = v1.zip v2
  | [], v2, ext, h => by
    have : v2 = [] := List.eq_nil_of_length_eq_zero h.symm
    simp [this]
  | a :: v1, [], ext, h => by simp at h
  | a :: v1, b :: v2, ext, h => by
    simp only [List.cons_append, List.zip_cons_cons]
    rw [zip_append_ignored v1 v2 ext (by simpa using h)]

/-- The dot product is commutative. -/
theorem dot_product_comm : ∀ v1 v2 : WVec, dot_product v1 v2 = dot_product v2 v1
  | [], v2 => by cases v2 <;> rfl
  | a :: v1, [] => rfl
  | a :: v1, b :: v2 => by
    simp only [dot_product, List.zip_cons_cons, List.map_cons, List.sum_cons]
    rw [mul_comm]
    exact congrArg _ (dot_product_comm v1 v2)

/-- C9: `dot_product` is total on unequal-length vectors: it sums the
products over the shorter length, ignoring the longer vector's tail
(`v1.iter().zip(v2.iter())` stops at the shorter iterator). -/
theorem C9_dot_product_truncates (v1 v2 ext : WVec) (h : v1.length = v2.length) :
    dot_product v1 (v2 ++ ext) = dot_product v1 v2 ∧
    dot_product (v1 ++ ext) v2 = dot_product v1 v2 := by
  constructor
  · rw [dot_product, dot_product, zip_append_ignored v1 v2 ext h]
  · have h2 := zip_append_ignored v2 v1 ext h.symm
    rw [dot_product_comm, dot_product, h2, ← dot_product, dot_product_comm v2 v1]

/-- C9 witness: `dot_product` on a concrete unequal-length pair returns the
sum over the shorter length. -/
theorem C9_witness :
    dot_product [1, 2] ([3, 4] ++ [5]) = dot_product [1, 2] [3, 4] ∧
    dot_product ([1, 2] ++ [5]) [3, 4] = dot_product [1, 2] [3, 4] :=
  C9_dot_product_truncates [1, 2] [3, 4] [5] rfl

/-- C2 counterexample: at the upper endpoint the Candidate Filter rejects.
With `vec(cw) = [1]`, `vec(w) = [1/20000]` and `target = 0` the scaled
similarity is exactly `target + 0.005`, which the claim's closed interval
`±0.005` contains, yet `filter_embeddings` returns `false`. -/
theorem C2_endpoint_cex :
    filter_embeddings [1] [1/20000] 0 = false ∧
    dot_product [1] [1/20000] * 100 = 0 + 5/1000 := by
  constructor
  · simp [filter_embeddings, dot_product]
    norm_num
  · simp [dot_product]
    norm_num

/-- C2 (amended): the Candidate Filter keeps a word iff the scaled
similarity lies in the half-open interval
`[target - 0.005, target + 0.005)`: the lower endpoint is accepted
(`res >= target_val - 0.005`), the upper endpoint is rejected
(`res < target_val + 0.005`). -/
theorem C2_filter_halfopen (v1 v2 : WVec) (target_val : ℚ) :
    filter_embeddings v1 v2 target_val = true ↔
      target_val - 5/1000 ≤ dot_product v1 v2 * 100 ∧
      dot_product v1 v2 * 100 < target_val + 5/1000 := by
  simp [filter_embeddings, ge_iff_le]

/-- C1 (code bug): on the Working Candidate Set `{a ↦ [1,0], b ↦ [0,0]}`
(iteration order `[a, b]`) with a non-empty Constraint Log, `fb` proposes
`b`, the last word in iteration order, even though `a` produces 2 distinct
similarity buckets and `b` only 1: the fold
`fold(("-", 0), |a, b| (b.0, a.1.max(b.1)))` always keeps the most recent
word while maxing the counts, so the reported word is unrelated to the
maximal count, contradicting the command's own description
("Find the best word") and output text ("The optimal word ... is"). -/
theorem C1_fb_bug :
    fb_proposed [("a", [1, 0]), ("b", [0, 0])] [("x", 0)] = "b" ∧
    fb_count [("a", [1, 0]), ("b", [0, 0])] [1, 0] = 2 ∧
    fb_count [("a", [1, 0]), ("b", [0, 0])] [0, 0] = 1 := by
  have haa : rustRound (dot_product [1, 0] [1, 0] * 10000) = 10000 := by
    simp [rustRound, dot_product]
    norm_num
  have hab : rustRound (dot_product [1, 0] [0, 0] * 10000) = 0 := by
    simp [rustRound, dot_product]
    norm_num
  have hba : rustRound (dot_product [0, 0] [1, 0] * 10000) = 0 := by
    simp [rustRound, dot_product]
    norm_num
  have hbb : rustRound (dot_product [0, 0] [0, 0] * 10000) = 0 := by
    simp [rustRound, dot_product]
    norm_num
  have hca : fb_count [("a", [1, 0]), ("b", [0, 0])] [1, 0] = 2 := by
    simp [fb_count, haa, hab, List.dedup_cons_of_not_mem, List.dedup_cons_of_mem]
  have hcb : fb_count [("a", [1, 0]), ("b", [0, 0])] [0, 0] = 1 := by
    simp [fb_count, hba, hbb, List.dedup_cons_of_not_mem, List.dedup_cons_of_mem]
  refine ⟨?_, hca, hcb⟩
  simp [fb_proposed, hca, hcb]

/-- C4: the solver Add operation (`w <word> <value>`) leaves both the
Working Candidate Set and the Constraint Log unchanged whenever the word
is unknown to the Vocabulary or already has a constraint in the log. -/
theorem C4_add_error_atomic (original_words wtv : WMap) (log : LogT)
    (w s : String) (v : ℚ)
    (h : original_words.lookup w = none ∨ ∃ e ∈ log, e.1 = w) :
    wCommand [Term.str "w" none, Term.str w none, Term.str s (some v)]
      original_words wtv log = some ⟨wtv, log⟩ := by
  cases hlook : original_words.lookup w with
  | none => simp [wCommand, parseW, hlook]
  | some cv =>
    rcases h with hnone | ⟨e, he, hew⟩
    · rw [hlook] at hnone
      exact absurd hnone (by simp)
    · have hany : (log.any fun e => e.1 == w) = true :=
        List.any_eq_true.mpr ⟨e, he, by simpa using hew⟩
      simp [wCommand, parseW, hlook, hany]

/-- C4 witness: adding the out-of-vocabulary word `b` leaves the concrete
session state untouched. -/
theorem C4_witness :
    wCommand [Term.str "w" none, Term.str "b" none, Term.str "1" (some 1)]
      [("a", [1])] [("a", [1])] [] = some ⟨[("a", [1])], []⟩ :=
  C4_add_error_atomic [("a", [1])] [("a", [1])] [] "b" "1" 1 (Or.inl (by decide))

/-- C5: from any reachable solver state whose log does not mention `w`,
adding the constraint `(w, v)` and then removing `w` restores the Working
Candidate Set exactly (hence also as a set of words). -/
theorem C5_add_remove_roundtrip (original_words wtv : WMap) (log : LogT)
    (w s : String) (v : ℚ) (r1 r2 : WResult)
    (hreach : Reach original_words wtv log)
    (hw : ∀ e ∈ log, e.1 ≠ w)
    (h1 : wCommand [Term.str "w" none, Term.str w none, Term.str s (some v)]
            original_words wtv log = some r1)
    (h2 : wCommand [Term.str "w" none, Term.str w none, Term.tr]
            original_words r1.wtv r1.log = some r2) :
    r2.wtv = wtv := by
  have hinv := Reach_update original_words wtv log hreach
  cases hlook : original_words.lookup w with
  | none =>
    simp only [wCommand, parseW, List.drop, hlook, Option.isSome_none,
      Bool.false_eq_true, if_false, Option.some.injEq] at h1
    subst h1
    simp only [wCommand, parseW, List.drop, hlook, Option.isSome_none,
      Bool.false_eq_true, if_false, Option.some.injEq] at h2
    subst h2
    rfl
  | some cv =>
    have hany : (log.any fun e => e.1 == w) = false := by
      rw [Bool.eq_false_iff]
      intro hc
      obtain ⟨e, he, hew⟩ := List.any_eq_true.mp hc
      exact hw e he (by simpa using hew)
    simp only [wCommand, parseW, List.drop, hlook, Option.isSome_some, if_true,
      hany, Bool.false_eq_true, if_false, Option.some.injEq] at h1
    subst h1
    have hany2 : ((log ++ [(w, v)]).any fun e => e.1 == w) = true := by simp
    have hrem : removeLog (log ++ [(w, v)]) w = log := by
      rw [removeLog, List.filter_append]
      have hkeep : (log.filter fun e => !(e.1 == w)) = log :=
        List.filter_eq_self.mpr fun e he => by simpa using hw e he
      simp [hkeep]
    simp only [wCommand, parseW, List.drop, hlook, Option.isSome_some, if_true,
      hany2, Bool.not_true, Bool.false_eq_true, if_false, hrem, hinv,
      Option.map_some', Option.some.injEq] at h2
    subst h2
    rfl

/-- C5 witness: add `a` at 100 then remove `a` on a concrete one-word
session restores the Working Candidate Set. -/
theorem C5_witness :
    (⟨[("a", [1])], []⟩ : WResult).wtv = [("a", [1])] := by
  have hf1 : filter_embeddings [1] [1] 100 = true := by
    simp [filter_embeddings, dot_product]
    norm_num
  exact C5_add_remove_roundtrip [("a", [1])] [("a", [1])] [] "a" "x" 100
    ⟨[("a", [1])], [("a", 100)]⟩ ⟨[("a", [1])], []⟩
    Reach.init (by simp)
    (by simp [wCommand, parseW, hf1])
    (by simp [wCommand, parseW, removeLog, update_words, update_words_go])

/-- C6 counterexample: in the reachable session state with vocabulary
`{a ↦ [1]}` and log `[(a, 100)]`, performing Add(a, 0) (which fails as a
duplicate, leaving the state unchanged) and then Edit(a, 0) empties
the Working Candidate Set, while performing only Add(a, 0) leaves it at
`{a}` — so the claim's unrestricted quantification over `w` is false. -/
theorem C6_cex :
    Reach [("a", [1])] [("a", [1])] [("a", 100)] ∧
    wCommand [Term.str "w" none, Term.str "a" none, Term.str "0" (some 0)]
        [("a", [1])] [("a", [1])] [("a", 100)]
      = some ⟨[("a", [1])], [("a", 100)]⟩ ∧
    wCommand [Term.str "w" none, Term.str "a" none, Term.str "0" (some 0), Term.te]
        [("a", [1])] [("a", [1])] [("a", 100)]
      = some ⟨[], [("a", 0)]⟩ ∧
    (⟨[], [("a", 0)]⟩ : WResult).wtv ≠ (⟨[("a", [1])], [("a", 100)]⟩ : WResult).wtv := by
  have hf0 : filter_embeddings [1] [1] 0 = false := by
    simp [filter_embeddings, dot_product]
    norm_num
  have hf1 : filter_embeddings [1] [1] 100 = true := by
    simp [filter_embeddings, dot_product]
    norm_num
  refine ⟨?_, ?_, ?_, by simp⟩
  · exact Reach.step [Term.str "w" none, Term.str "a" none, Term.str "100" (some 100)]
      [("a", [1])] [] ⟨[("a", [1])], [("a", 100)]⟩ Reach.init
      (by simp [wCommand, parseW, hf1])
  · simp [wCommand, parseW]
  · simp [wCommand, parseW, editLog, update_words, update_words_go, hf0]

/-- C6 (amended): from any reachable solver state whose log does not yet
constrain `w`, Add(w, v1) followed by Edit(w, v2) yields the same Working
Candidate Set as only Add(w, v2). -/
theorem C6_add_edit_eq_add (original_words wtv : WMap) (log : LogT)
    (w s1 s2 s3 : String) (v1 v2 : ℚ) (r1 r2 r3 : WResult)
    (hreach : Reach original_words wtv log)
    (hw : ∀ e ∈ log, e.1 ≠ w)
    (h1 : wCommand [Term.str "w" none, Term.str w none, Term.str s1 (some v1)]
            original_words wtv log = some r1)
    (h2 : wCommand [Term.str "w" none, Term.str w none, Term.str s2 (some v2), Term.te]
            original_words r1.wtv r1.log = some r2)
    (h3 : wCommand [Term.str "w" none, Term.str w none, Term.str s3 (some v2)]
            original_words wtv log = some r3) :
    r2.wtv = r3.wtv := by
  have hinv := Reach_update original_words wtv log hreach
  cases hlook : original_words.lookup w with
  | none =>
    simp only [wCommand, parseW, List.drop, hlook, Option.isSome_none,
      Bool.false_eq_true, if_false, Option.some.injEq] at h1
    subst h1
    simp only [wCommand, parseW, List.drop, hlook, Option.isSome_none,
      Bool.false_eq_true, if_false, Option.some.injEq] at h2 h3
    subst h2
    subst h3
    rfl
  | some cv =>
    have hany : (log.any fun e => e.1 == w) = false := by
      rw [Bool.eq_false_iff]
      intro hc
      obtain ⟨e, he, hew⟩ := List.any_eq_true.mp hc
      exact hw e he (by simpa using hew)
    simp only [wCommand, parseW, List.drop, hlook, Option.isSome_some, if_true,
      hany, Bool.false_eq_true, if_false, Option.some.injEq] at h1 h3
    subst h1
    subst h3
    have hany2 : ((log ++ [(w, v1)]).any fun e => e.1 == w) = true := by simp
    have hedit : editLog (log ++ [(w, v1)]) w v2 = log ++ [(w, v2)] := by
      rw [editLog, List.map_append]
      congr 1
      · exact (List.map_congr_left fun e he => by
          have hne : (e.1 == w) = false := by simpa using hw e he
          simp [hne]).trans (List.map_id log)
      · simp
    have hupd : update_words original_words (log ++ [(w, v2)]) =
        some (wtv.filter fun p => filter_embeddings cv p.2 v2) := by
      rw [update_words] at hinv ⊢
      rw [update_words_go_append, hinv]
      simp [hlook]
    simp only [wCommand, parseW, List.drop, hlook, Option.isSome_some, if_true,
      hany2, Bool.not_true, Bool.false_eq_true, if_false, hedit, hupd,
      Option.map_some', Option.some.injEq] at h2
    subst h2
    rfl

/-- C6 witness: on a fresh one-word session, Add(a, 50) then Edit(a, 100)
leaves the same Working Candidate Set as Add(a, 100) alone. -/
theorem C6_witness :
    (⟨[("a", [1])], [("a", 100)]⟩ : WResult).wtv
      = (⟨[("a", [1])], [("a", 100)]⟩ : WResult).wtv := by
  have hf1 : filter_embeddings [1] [1] 100 = true := by
    simp [filter_embeddings, dot_product]
    norm_num
  have hf50 : filter_embeddings [1] [1] 50 = false := by
    simp [filter_embeddings, dot_product]
    norm_num
  exact C6_add_edit_eq_add [("a", [1])] [("a", [1])] [] "a" "x" "y" "z" 50 100
    ⟨[], [("a", 50)]⟩ ⟨[("a", [1])], [("a", 100)]⟩ ⟨[("a", [1])], [("a", 100)]⟩
    Reach.init (by simp)
    (by simp [wCommand, parseW, hf50])
    (by simp [wCommand, parseW, editLog, update_words, update_words_go, hf1])
    (by simp [wCommand, parseW, hf1])

/-- C7: in every reachable solver session state, an Add command never
increases the size of the Working Candidate Set and a Remove command never
decreases it. -/
theorem C7_monotone (original_words wtv : WMap) (log : LogT)
    (hreach : Reach original_words wtv log) :
    (∀ (w s : String) (v : ℚ) (r : WResult),
        wCommand [Term.str "w" none, Term.str w none, Term.str s (some v)]
          original_words wtv log = some r →
        r.wtv.length ≤ wtv.length) ∧
    (∀ (w : String) (r : WResult),
        wCommand [Term.str "w" none, Term.str w none, Term.tr]
          original_words wtv log = some r →
        wtv.length ≤ r.wtv.length) := by
  have hinv := Reach_update original_words wtv log hreach
  constructor
  · intro w s v r h
    cases hlook : original_words.lookup w with
    | none =>
      simp only [wCommand, parseW, List.drop, hlook, Option.isSome_none,
        Bool.false_eq_true, if_false, Option.some.injEq] at h
      subst h
      exact le_refl _
    | some cv =>
      by_cases hany : (log.any fun e => e.1 == w) = true
      · simp only [wCommand, parseW, List.drop, hlook, Option.isSome_some, if_true,
          hany, Option.some.injEq] at h
        subst h
        exact le_refl _
      · rw [Bool.not_eq_true] at hany
        simp only [wCommand, parseW, List.drop, hlook, Option.isSome_some, if_true,
          hany, Bool.false_eq_true, if_false, Option.some.injEq] at h
        subst h
        exact List.length_filter_le _ wtv
  · intro w r h
    cases hlook : original_words.lookup w with
    | none =>
      simp only [wCommand, parseW, List.drop, hlook, Option.isSome_none,
        Bool.false_eq_true, if_false, Option.some.injEq] at h
      subst h
      exact le_refl _
    | some cv =>
      by_cases hany : (log.any fun e => e.1 == w) = true
      · simp only [wCommand, parseW, List.drop, hlook, Option.isSome_some, if_true,
          hany, Bool.not_true, Bool.false_eq_true, if_false] at h
        obtain ⟨m, hm, hr⟩ := Option.map_eq_some'.mp h
        have hwtv := update_words_go_eq_filter original_words log original_words wtv hinv
        have hm2 := update_words_go_eq_filter original_words (removeLog log w)
          original_words m hm
        rw [← hr, hwtv, hm2]
        refine filter_length_mono _ _ original_words fun a _ ha => ?_
        rw [removeLog]
        exact consistentAll_filter_weaker original_words log _ a ha
      · rw [Bool.not_eq_true] at hany
        simp only [wCommand, parseW, List.drop, hlook, Option.isSome_some, if_true,
          hany, Bool.not_false, if_true, Option.some.injEq] at h
        subst h
        exact le_refl _

/-- C7 witness: on a concrete two-word session, a successful Add shrinks
the Working Candidate Set from two words to one, and a Remove on the empty
log leaves its size unchanged. -/
theorem C7_witness :
    ([("a", [1])] : WMap).length ≤ ([("a", [1]), ("b", [0])] : WMap).length ∧
    ([("a", [1]), ("b", [0])] : WMap).length ≤ ([("a", [1]), ("b", [0])] : WMap).length := by
  have hf1 : filter_embeddings [1] [1] 100 = true := by
    simp [filter_embeddings, dot_product]
    norm_num
  have hf2 : filter_embeddings [1] [0] 100 = false := by
    simp [filter_embeddings, dot_product]
    norm_num
  constructor
  · exact (C7_monotone [("a", [1]), ("b", [0])] [("a", [1]), ("b", [0])] []
      Reach.init).1 "a" "x" 100 ⟨[("a", [1])], [("a", 100)]⟩
      (by simp [wCommand, parseW, hf1, hf2])
  · exact (C7_monotone [("a", [1]), ("b", [0])] [("a", [1]), ("b", [0])] []
      Reach.init).2 "a" ⟨[("a", [1]), ("b", [0])], []⟩
      (by simp [wCommand, parseW])

/-- Indexing into a list extended by one element on the right. -/
theorem getElem?_append_singleton {α : Type} (l : List α) (a x : α) (k : Nat)
    (h : (l ++ [a])[k]? = some x) :
    l[k]? = some x ∨ (k = l.length ∧ x = a) := by
  rcases Nat.lt_trichotomy k l.length with hk | hk | hk
  · left
    rwa [List.getElem?_append_left hk] at h
  · right
    subst hk
    rw [List.getElem?_concat_length] at h
    exact ⟨rfl, (Option.some.inj h).symm⟩
  · have hlen : (l ++ [a]).length ≤ k := by
      simp only [List.length_append, List.length_singleton]
      omega
    rw [List.getElem?_eq_none hlen] at h
    exact absurd h (by simp)

/-- The scoreboard redraw never touches the log, the guess counter, the
guessed set or `most_recent`, and can only raise `best_guessed`. -/
theorem displayStep_spec (s s9 : GameState) (h : displayStep s = .cont s9) :
    s9.log = s.log ∧ s9.guesses = s.guesses ∧ s9.guessed = s.guessed ∧
    s9.mostRecent = s.mostRecent ∧ s.bestGuessed ≤ s9.bestGuessed := by
  rw [displayStep] at h
  split at h
  · exact absurd h (by simp)
  · split at h
    · cases h
      exact ⟨rfl, rfl, rfl, rfl, Nat.le_max_left _ _⟩
    · cases h
      exact ⟨rfl, rfl, rfl, rfl, le_refl _⟩

/-- When the redrawn entry has rank index `idx ≤ 999`, the redraw raises
`best_guessed` to at least `1000 - idx`. -/
theorem displayStep_bg (s s9 : GameState) (e : Nat × Nat × ℚ × Nat)
    (h : displayStep s = .cont s9) (hg : s.log[s.mostRecent - 1]? = some e)
    (hi : e.2.2.2 ≤ 999) : 1000 - e.2.2.2 ≤ s9.bestGuessed := by
  simp only [displayStep, hg] at h
  rw [if_pos hi] at h
  cases h
  exact Nat.le_max_right _ _

/-- Processing one word preserves the game-loop invariant, never removes
words from the guessed set, and records the processed word as guessed when
it is in the vocabulary. -/
theorem processWord_preserves (sims : Nat → Option (ℚ × Nat)) (s : GameState)
    (w : Nat) (s9 : GameState) (hs : List Nat)
    (hI : GInv sims s hs) (h : processWord sims s w = .cont s9) :
    GInv sims s9 hs ∧ (∀ y ∈ s.guessed, y ∈ s9.guessed) ∧
    ((sims w).isSome = true → w ∈ s9.guessed) := by
  rw [processWord] at h
  cases hsim : sims w with
  | none =>
    simp only [hsim] at h
    by_cases hmr : s.mostRecent = 0
    · rw [if_pos hmr] at h
      cases h
      exact ⟨hI, fun y hy => hy, fun hco => absurd hco (by simp)⟩
    · rw [if_neg hmr] at h
      obtain ⟨hlog, hgss, hgd, hmr2, hbg⟩ := displayStep_spec s s9 h
      refine ⟨⟨?_, ?_, ?_, ?_⟩, ?_, fun hco => absurd hco (by simp)⟩
      · rw [hlog, hgss]
        exact hI.len_eq
      · intro k e hk
        rw [hlog] at hk
        exact hI.numbered k e hk
      · intro y hy sc idx hsims hidx
        rw [hgd] at hy
        exact le_trans (hI.bg_bound y hy sc idx hsims hidx) hbg
      · intro y hy
        rw [hgd]
        exact hI.hints_guessed y hy
      · intro y hy
        rw [hgd]
        exact hy
  | some x =>
    simp only [hsim] at h
    by_cases hmem : w ∈ s.guessed
    · rw [if_pos hmem] at h
      cases hfind : s.log.find? fun e2 => e2.2.1 == w with
      | none =>
        simp only [hfind] at h
        exact absurd h (by simp)
      | some e =>
        simp only [hfind] at h
        obtain ⟨hlog, hgss, hgd, hmr2, hbg⟩ := displayStep_spec _ s9 h
        have hlog2 : s9.log = s.log := hlog
        have hgss2 : s9.guesses = s.guesses := hgss
        have hgd2 : s9.guessed = s.guessed := hgd
        have hbg2 : s.bestGuessed ≤ s9.bestGuessed := hbg
        refine ⟨⟨?_, ?_, ?_, ?_⟩, ?_, ?_⟩
        · rw [hlog2, hgss2]
          exact hI.len_eq
        · intro k e2 hk
          rw [hlog2] at hk
          exact hI.numbered k e2 hk
        · intro y hy sc idx hsims hidx
          rw [hgd2] at hy
          exact le_trans (hI.bg_bound y hy sc idx hsims hidx) hbg2
        · intro y hy
          rw [hgd2]
          exact hI.hints_guessed y hy
        · intro y hy
          rw [hgd2]
          exact hy
        · intro _
          rw [hgd2]
          exact hmem
    · rw [if_neg hmem] at h
      obtain ⟨hlog, hgss, hgd, hmr2, hbg⟩ := displayStep_spec _ s9 h
      have hlog2 : s9.log = s.log ++ [(s.guesses + 1, w, x.1, x.2)] := hlog
      have hgss2 : s9.guesses = s.guesses + 1 := hgss
      have hgd2 : s9.guessed = w :: s.guessed := hgd
      have hbg2 : s.bestGuessed ≤ s9.bestGuessed := hbg
      have hginw : w ∈ s9.guessed := by
        rw [hgd2]
        exact List.mem_cons_self w s.guessed
      refine ⟨⟨?_, ?_, ?_, ?_⟩, ?_, fun _ => hginw⟩
      · rw [hlog2, hgss2, List.length_append, hI.len_eq]
        rfl
      · intro k e2 hk
        rw [hlog2] at hk
        rcases getElem?_append_singleton _ _ _ _ hk with hold | ⟨hkl, hee⟩
        · exact hI.numbered k e2 hold
        · rw [hee, hkl, hI.len_eq]
      · intro y hy sc idx hsims hidx
        rw [hgd2] at hy
        rcases List.mem_cons.mp hy with rfl | hold
        · rw [hsim] at hsims
          obtain ⟨h1, h2⟩ := Prod.mk.injEq .. ▸ Option.some.inj hsims
          subst h2
          refine displayStep_bg _ s9 (s.guesses + 1, y, x.1, x.2) h ?_ hidx
          show (s.log ++ [(s.guesses + 1, y, x.1, x.2)])[s.guesses + 1 - 1]? = _
          rw [Nat.add_sub_cancel, ← hI.len_eq, List.getElem?_concat_length]
        · exact le_trans (hI.bg_bound y hold sc idx hsims hidx) hbg2
      · intro y hy
        rw [hgd2]
        exact List.mem_cons_of_mem w (hI.hints_guessed y hy)
      · intro y hy
        rw [hgd2]
        exact List.mem_cons_of_mem w hy

/-- A successfully computed hint word is neither already guessed nor a
previously returned hint, and it is in the vocabulary. -/
theorem hint_fresh (most_similar : List Nat) (sims : Nat → Option (ℚ × Nat))
    (s : GameState) (hs : List Nat) (w : Nat)
    (H2 : ∀ (i y : Nat), most_similar[i]? = some y → ∃ sc, sims y = some (sc, i))
    (hI : GInv sims s hs) (hhw : hintWord most_similar s = some w) :
    w ∉ s.guessed ∧ (sims w).isSome = true ∧ w ∉ hs := by
  rw [hintWord] at hhw
  by_cases hbg : s.bestGuessed ≥ 1000
  · rw [if_pos hbg] at hhw
    exact absurd hhw (by simp)
  · rw [if_neg hbg] at hhw
    obtain ⟨sc, hsims⟩ := H2 _ _ hhw
    have hnotg : w ∉ s.guessed := by
      intro hg
      have := hI.bg_bound w hg sc (999 - s.bestGuessed) hsims (by omega)
      omega
    exact ⟨hnotg, by simp [hsims], fun hin => hnotg (hI.hints_guessed w hin)⟩

/-- Main induction for the hint claim: starting from any state satisfying
the invariant with a duplicate-free list `hs` of previously returned
hints, the hints collected by the rest of the run extend `hs` without ever
repeating a word. -/
theorem gameRunHints_nodup_aux (answer : Nat) (most_similar : List Nat)
    (sims : Nat → Option (ℚ × Nat))
    (H2 : ∀ (i y : Nat), most_similar[i]? = some y → ∃ sc, sims y = some (sc, i)) :
    ∀ (inputs : List GInput) (s : GameState) (hs : List Nat),
      GInv sims s hs → hs.Nodup →
      (hs ++ gameRunHints answer most_similar sims s inputs).Nodup
  | [], s, hs, hI, hnd => by
    rw [gameRunHints]
    simpa using hnd
  | inp :: rest, s, hs, hI, hnd => by
    rw [gameRunHints]
    cases inp with
    | word w =>
      by_cases hans : w = answer
      · have hstep : gameStep answer most_similar sims s (.word w) = .won (s.guesses + 1) := by
          rw [gameStep, if_pos hans]
        rw [hstep]
        simpa [hintsOf] using hnd
      · cases hstep : processWord sims s w with
        | cont s2 =>
          have hstep2 : gameStep answer most_similar sims s (.word w) = .cont s2 := by
            rw [gameStep, if_neg hans, hstep]
          rw [hstep2]
          obtain ⟨hI2, _, _⟩ := processWord_preserves sims s w s2 hs hI hstep
          simpa [hintsOf] using
            gameRunHints_nodup_aux answer most_similar sims H2 rest s2 hs hI2 hnd
        | won n =>
          have hstep2 : gameStep answer most_similar sims s (.word w) = .won n := by
            rw [gameStep, if_neg hans, hstep]
          rw [hstep2]
          simpa [hintsOf] using hnd
        | quitted =>
          have hstep2 : gameStep answer most_similar sims s (.word w) = .quitted := by
            rw [gameStep, if_neg hans, hstep]
          rw [hstep2]
          simpa [hintsOf] using hnd
        | panic =>
          have hstep2 : gameStep answer most_similar sims s (.word w) = .panic := by
            rw [gameStep, if_neg hans, hstep]
          rw [hstep2]
          simpa [hintsOf] using hnd
    | quit =>
      have hstep : gameStep answer most_similar sims s .quit = .quitted := rfl
      rw [hstep]
      simpa [hintsOf] using hnd
    | help =>
      have hstep : gameStep answer most_similar sims s .help = .cont s := rfl
      rw [hstep]
      simpa [hintsOf] using
        gameRunHints_nodup_aux answer most_similar sims H2 rest s hs hI hnd
    | hint =>
      cases hhw : hintWord most_similar s with
      | none =>
        have hstep : gameStep answer most_similar sims s .hint = .panic := by
          rw [gameStep, hhw]
        rw [hstep]
        simpa [hintsOf, hhw] using hnd
      | some w =>
        obtain ⟨hfresh1, hfresh2, hfresh3⟩ :=
          hint_fresh most_similar sims s hs w H2 hI hhw
        have hnd2 : (hs ++ [w]).Nodup := by
          rw [List.nodup_append]
          exact ⟨hnd, List.nodup_singleton w,
            fun a ha hain => hfresh3 (List.mem_singleton.mp hain ▸ ha)⟩
        cases hstep : processWord sims s w with
        | cont s2 =>
          have hstep2 : gameStep answer most_similar sims s .hint = .cont s2 := by
            rw [gameStep, hhw]
            exact hstep
          rw [hstep2]
          obtain ⟨hI2, hsub, hwin⟩ := processWord_preserves sims s w s2 hs hI hstep
          have hI3 : GInv sims s2 (hs ++ [w]) := by
            refine ⟨hI2.len_eq, hI2.numbered, hI2.bg_bound, ?_⟩
            intro y hy
            rcases List.mem_append.mp hy with hl | hr
            · exact hI2.hints_guessed y hl
            · rw [List.mem_singleton.mp hr]
              exact hwin hfresh2
          have := gameRunHints_nodup_aux answer most_similar sims H2 rest s2
            (hs ++ [w]) hI3 hnd2
          simpa [hintsOf, hhw, List.append_assoc] using this
        | won n =>
          have hstep2 : gameStep answer most_similar sims s .hint = .won n := by
            rw [gameStep, hhw]
            exact hstep
          rw [hstep2]
          simpa [hintsOf, hhw] using hnd2
        | quitted =>
          have hstep2 : gameStep answer most_similar sims s .hint = .quitted := by
            rw [gameStep, hhw]
            exact hstep
          rw [hstep2]
          simpa [hintsOf, hhw] using hnd2
        | panic =>
          have hstep2 : gameStep answer most_similar sims s .hint = .panic := by
            rw [gameStep, hhw]
            exact hstep
          rw [hstep2]
          simpa [hintsOf, hhw] using hnd2

/-- C3 counterexample: in a 1000-word game whose secret is word 0 (rank
index 0), guessing the second-ranked word (rank index 1) raises
`best_guessed` to 999, after which the session's first `!hint` returns
`most_similar[0]` — the secret word itself — so `!hint` can reveal the
secret, contradicting the claim. -/
theorem C3_hint_secret_cex :
    gameRunHints 0 (List.range 1000) sims1000 initGameState
      [GInput.word 1, GInput.hint] = [0] := by
  decide

/-- C3 (amended): in every game session — any vocabulary whose
`most_similar` ranking and `similarities` table are consistent, and any
input sequence — the words returned by `!hint` are pairwise distinct:
`!hint` never returns a word it already returned earlier.  (The other half
of the original claim, that `!hint` never returns the secret, is false.) -/
theorem C3_hint_no_repeat (answer : Nat) (most_similar : List Nat)
    (sims : Nat → Option (ℚ × Nat)) (inputs : List GInput)
    (H2 : ∀ (i y : Nat), most_similar[i]? = some y → ∃ sc, sims y = some (sc, i)) :
    (gameRunHints answer most_similar sims initGameState inputs).Nodup := by
  have hI : GInv sims initGameState [] := by
    refine ⟨rfl, ?_, ?_, ?_⟩
    · intro k e hk
      exact absurd hk (by simp [initGameState])
    · intro y hy
      exact absurd hy (by simp [initGameState])
    · intro y hy
      exact absurd hy (by simp)
  simpa using gameRunHints_nodup_aux answer most_similar sims H2 inputs
    initGameState [] hI List.nodup_nil

/-- C3 witness: the hints of the concrete 1000-word session
`[guess word 1, !hint]` are duplicate-free. -/
theorem C3_witness :
    (gameRunHints 0 (List.range 1000) sims1000 initGameState
      [GInput.word 1, GInput.hint]).Nodup := by
  refine C3_hint_no_repeat 0 (List.range 1000) sims1000
    [GInput.word 1, GInput.hint] ?_
  intro i y h
  have hi : i < 1000 := by
    by_contra hge
    rw [List.getElem?_eq_none (by simpa using Nat.le_of_not_lt hge)] at h
    exact absurd h (by simp)
  rw [List.getElem?_range hi] at h
  obtain rfl := Option.some.inj h
  exact ⟨0, by simp [sims1000, hi]⟩

/-- C8: a known word that was already guessed does not increment the guess
counter and appends no log entry; `most_recent` is reset to the word's
previously recorded guess number, so the scoreboard re-displays its
recorded entry (guess number, score and rank index) as most recent. -/
theorem C8_repeat_guess (answer : Nat) (most_similar : List Nat)
    (sims : Nat → Option (ℚ × Nat)) (s : GameState) (w : Nat)
    (x : ℚ × Nat) (e : Nat × Nat × ℚ × Nat)
    (hans : w ≠ answer)
    (hsim : sims w = some x)
    (hmem : w ∈ s.guessed)
    (hfind : (s.log.find? fun e2 => e2.2.1 == w) = some e)
    (hget : s.log[e.1 - 1]? = some e) :
    ∃ s9, gameStep answer most_similar sims s (.word w) = .cont s9 ∧
      s9.guesses = s.guesses ∧ s9.log = s.log ∧ s9.mostRecent = e.1 := by
  have hbody : gameStep answer most_similar sims s (.word w) =
      displayStep { s with mostRecent := e.1 } := by
    rw [gameStep, if_neg hans, processWord]
    simp only [hsim, if_pos hmem, hfind]
  by_cases hi : e.2.2.2 ≤ 999
  · refine ⟨{ s with mostRecent := e.1, bestGuessed := max s.bestGuessed (1000 - e.2.2.2) }, ?_, rfl, rfl, rfl⟩
    rw [hbody, displayStep]
    simp only [hget]
    rw [if_pos hi]
  · refine ⟨{ s with mostRecent := e.1 }, ?_, rfl, rfl, rfl⟩
    rw [hbody, displayStep]
    simp only [hget]
    rw [if_neg hi]

/-- C8 witness: re-guessing word 1 in a concrete session re-displays its
entry without consuming a guess number or extending the log. -/
theorem C8_witness :
    ∃ s9, gameStep 0 []
        (fun w => if w = 1 then some ((0 : ℚ), 1) else none)
        ⟨1, [1], [(1, 1, 0, 1)], 1, 999⟩ (.word 1) = .cont s9 ∧
      s9.guesses = (⟨1, [1], [(1, 1, 0, 1)], 1, 999⟩ : GameState).guesses ∧
      s9.log = (⟨1, [1], [(1, 1, 0, 1)], 1, 999⟩ : GameState).log ∧
      s9.mostRecent = (1, 1, (0 : ℚ), 1).1 :=
  C8_repeat_guess 0 [] (fun w => if w = 1 then some ((0 : ℚ), 1) else none)
    ⟨1, [1], [(1, 1, 0, 1)], 1, 999⟩ 1 (0, 1) (1, 1, 0, 1)
    (by decide) rfl (by decide) rfl rfl

/-- C10 counterexample: in a 500-word game, a valid guess (rank index 1)
pushes `best_guessed` to 999, after which the session's FIRST `!hint`
invocation succeeds (it indexes position 0) — it returns word 0 and the
session continues, so with fewer than 1000 words the first `!hint` does
not always panic. -/
theorem C10_hint_cex :
    (gameRunState 0 (List.range 500) sims500 initGameState
      [GInput.word 1, GInput.hint]).isSome = true ∧
    gameRunHints 0 (List.range 500) sims500 initGameState
      [GInput.word 1, GInput.hint] = [0] := by
  decide

/-- C10 (amended): with a vocabulary of fewer than 1000 words, `!hint`
invoked while `best_guessed = 0` — in particular as the first input of a
session, before any valid guess — panics: it indexes the
descending-similarity list at `1000 - best_guessed - 1 = 999`, which is
out of bounds, and unwraps. -/
theorem C10_hint_panics_small_vocab (answer : Nat) (most_similar : List Nat)
    (sims : Nat → Option (ℚ × Nat)) (s : GameState)
    (hlen : most_similar.length < 1000) (hbg : s.bestGuessed = 0) :
    gameStep answer most_similar sims s .hint = .panic := by
  have h999 : hintWord most_similar s = none := by
    rw [hintWord, if_neg (by omega)]
    exact List.getElem?_eq_none (by omega)
  rw [gameStep, h999]

/-- C10 witness: the very first `!hint` of a session over a concrete small
vocabulary panics. -/
theorem C10_witness :
    gameStep 0 [7] (fun _ => none) initGameState .hint = .panic :=
  C10_hint_panics_small_vocab 0 [7] (fun _ => none) initGameState (by decide) rfl

end Semantle
